import Mathlib

/-!
Verification of the go_logger repository (package logger, current revision:
the implementation carrying InitWithFile / plainFileWriter / Fatal / Api).

Strings are embedded as lists of characters (Str); Go library functions that
the source calls (strings.TrimSpace, strings.Split, strings.ToUpper,
strings.Join, fmt.Sprint, the log package line formatting, io.MultiWriter)
are modelled over Str following their documented semantics.  All definitions
are executable and decidable on concrete inputs.
-/

/-- Byte/character strings, the model of Go strings. -/
abbrev Str := List Char

/-- Convert a Lean string literal to the Str model. -/
def str2 (s : String) : Str := s.data

/-- Go strings.TrimSpace white-space test (ASCII subset actually occurring in
level filter strings: space, tab, newline, vertical tab, form feed, carriage
return). -/
def isSpaceChar (c : Char) : Bool :=
  c = ' ' || c = '\t' || c = '\n' || c = Char.ofNat 11 || c = Char.ofNat 12 || c = '\r'

/-- Model of Go strings.TrimSpace: drop white space from both ends. -/
def trimGo (s : Str) : Str :=
  ((s.dropWhile isSpaceChar).reverse.dropWhile isSpaceChar).reverse

/-- Model of Go strings.Split(s, ",") : split at every comma, keeping empty
pieces. -/
def splitOnComma : Str → List Str
  | [] => [[]]
  | c :: rest =>
    if c = ',' then [] :: splitOnComma rest
    else
      match splitOnComma rest with
      | [] => [[c]]
      | t :: ts => (c :: t) :: ts

/-- Model of Go strings.ToUpper on ASCII letters. -/
def toUpperGo (s : Str) : Str :=
  s.map fun c => if 'a' ≤ c && c ≤ 'z' then Char.ofNat (c.toNat - 32) else c

/-- Log severity, from the Level constants of logger.go
(logger_file_test.go lines 256-265). -/
inductive Level where
  | debugLevel
  | infoLevel
  | warnLevel
  | errorLevel
  | fatalLevel
deriving DecidableEq, Repr

/-- The canonical upper-case name of each severity, as matched by the switch
in parseLevels. -/
def levelName : Level → Str
  | .debugLevel => str2 "DEBUG"
  | .infoLevel => str2 "INFO"
  | .warnLevel => str2 "WARN"
  | .errorLevel => str2 "ERROR"
  | .fatalLevel => str2 "FATAL"

/-- The switch of parseLevels (lines 385-398): which severity, if any, a
single comma-separated token selects.  WARN and WARNING both select the warn
severity; unrecognized tokens select nothing. -/
def tokenLevel (p : Str) : Option Level :=
  let u := toUpperGo (trimGo p)
  if u = str2 "DEBUG" then some .debugLevel
  else if u = str2 "INFO" then some .infoLevel
  else if u = str2 "WARN" then some .warnLevel
  else if u = str2 "WARNING" then some .warnLevel
  else if u = str2 "ERROR" then some .errorLevel
  else if u = str2 "FATAL" then some .fatalLevel
  else none

/-- The all-enabled severity set (what parseLevels builds for an empty
filter string, and also the package-level default of enabledLevels,
lines 282-288). -/
def allEnabled : Level → Bool := fun _ => true

/-- The empty Go map m of parseLevels: every lookup yields false. -/
def emptyLevels : Level → Bool := fun _ => false

/-- Setting one key of the enabled-set map to true. -/
def updateLevel (m : Level → Bool) (l : Level) : Level → Bool :=
  fun x => if x = l then true else m x

/-- parseLevels (logger_file_test.go lines 374-400): trims the input, returns
the all-enabled set for an empty result, otherwise walks the comma-separated
tokens and marks every recognized level name true in an initially empty
map. -/
def parseLevels (s : Str) : Level → Bool :=
  let t := trimGo s
  if t = [] then allEnabled
  else
    (splitOnComma t).foldl
      (fun m p =>
        match tokenLevel p with
        | some l => updateLevel m l
        | none => m)
      emptyLevels

/-- Effect of Init / InitWithFile (lines 320-322) on the enabled-set: the
environment value of LOGGER_LEVELS replaces the set only when it is
non-empty; the empty value (Go returns the empty string for an absent
variable) leaves the previous set in place. -/
def initLevels (env : Str) (prev : Level → Bool) : Level → Bool :=
  if env = [] then prev else parseLevels env

/-- The package-level initial value of enabledLevels (lines 282-288): all
five severities enabled. -/
def defaultEnabledLevels : Level → Bool := fun _ => true

/-- Go interface values passed to the variadic logging helpers: the cases the
repository and its tests actually pass (strings, integers, booleans).  The
key check keyvals[i].(string) of encodeFields succeeds exactly on vStr. -/
inductive Val where
  | vStr (s : Str)
  | vInt (n : Int)
  | vBool (b : Bool)
deriving DecidableEq, Repr

/-- Decimal rendering of a natural number (Go fmt "%v" on a non-negative
integer). -/
def natToStr (n : Nat) : Str := Nat.toDigits 10 n

/-- Decimal rendering of an integer (Go fmt "%v" / "%d"). -/
def intToStr (i : Int) : Str :=
  if i < 0 then '-' :: natToStr (-i).toNat else natToStr i.toNat

/-- The natural text form of a value: Go fmt "%v". -/
def render : Val → Str
  | .vStr s => s
  | .vInt n => intToStr n
  | .vBool b => if b then str2 "true" else str2 "false"

/-- Whether a value is a Go string (the dynamic type check in encodeFields
and the separator rule of fmt.Sprint). -/
def isStrVal : Val → Bool
  | .vStr _ => true
  | _ => false

/-- Model of Go strings.Join(parts, " "). -/
def joinWithSpace : List Str → Str
  | [] => []
  | [p] => p
  | p :: ps => p ++ ' ' :: joinWithSpace ps

/-- The loop of encodeFields (lines 513-520): walk the sequence two at a
time; a pair whose first item is not a string is skipped; a trailing item
with no partner is dropped; surviving pairs yield key=value strings in
order. -/
def encodeParts : List Val → List Str
  | k :: v :: rest =>
    match k with
    | .vStr s => (s ++ '=' :: render v) :: encodeParts rest
    | _ => encodeParts rest
  | _ => []

/-- encodeFields (logger_file_test.go lines 509-525). -/
def encodeFields (keyvals : List Val) : Str :=
  if keyvals.isEmpty then []
  else
    let parts := encodeParts keyvals
    if parts.isEmpty then []
    else ' ' :: joinWithSpace parts

/-- The pairs of the input that survive the walk of encodeFields, with their
keys, in input order (used to state claim C4). -/
def goodPairs : List Val → List (Str × Val)
  | k :: v :: rest =>
    match k with
    | .vStr s => (s, v) :: goodPairs rest
    | _ => goodPairs rest
  | _ => []

/-- A bracketed component of a composed log message: [s]. -/
def brk (s : Str) : Str := '[' :: s ++ [']']

/-- statusCodeToLevel (lines 795-806): 5xx to error, 4xx to warn, everything
below 400 (1xx, 2xx, 3xx) to info. -/
def statusCodeToLevel (code : Int) : Level :=
  if 500 ≤ code then .errorLevel
  else if 400 ≤ code then .warnLevel
  else if 300 ≤ code then .infoLevel
  else .infoLevel

/-- Api (lines 772-791): selects the severity from the status code, returns
without output when that severity is disabled, otherwise composes
[caller] [statusCode] msg and writes it through the logger selected by the
switch (which has cases only for info, warn and error).  The result is the
severity written to and the composed message, or none when nothing is
written.  The caller argument stands for the label getCallerInfo(2)
resolved at run time. -/
def Api (en : Level → Bool) (caller : Str) (code : Int) (msg : Str) :
    Option (Level × Str) :=
  let level := statusCodeToLevel code
  if en level = false then none
  else
    let logMsg := brk caller ++ ' ' :: brk (intToStr code) ++ ' ' :: msg
    match level with
    | .infoLevel => some (.infoLevel, logMsg)
    | .warnLevel => some (.warnLevel, logMsg)
    | .errorLevel => some (.errorLevel, logMsg)
    | _ => none

/-- Model of Go fmt.Sprint, used by the Println-style helpers (Debugln,
Infoln, Warnln, Errorln, Fatalln): operands are rendered with their natural
text form and a single space is added between two operands when neither is
a string (documented fmt.Sprint behavior). -/
def sprintGo : List Val → Str
  | [] => []
  | [v] => render v
  | v :: w :: rest =>
    render v ++
      (if isStrVal v = false && isStrVal w = false then [' '] else []) ++
      sprintGo (w :: rest)

/-- The message composed by the Println-style helpers (for example Infoln,
lines 625-635): fmt.Sprintf of [caller] followed by fmt.Sprint of the
arguments. -/
def lnMessage (caller : Str) (args : List Val) : Str :=
  brk caller ++ ' ' :: sprintGo args

/-- Observable events of one call to a logging operation: acquiring and
releasing the process-wide logMutex, a write of a composed message through
the installed backend, and process termination with an exit code. -/
inductive LogEvent where
  | lockEv
  | unlockEv
  | writeEv (msg : Str)
  | exitEv (code : Nat)
deriving DecidableEq, Repr

/-- The event trace of the shared body of Fatalf / Fatalln / FatalKV
(lines 592-603, 670-681, 748-759) given the already-composed message: when
FatalLevel is disabled the function calls os.Exit(1) at once without
locking or writing; otherwise it locks logMutex, registers the deferred
unlock, writes the message and calls os.Exit(1).  Go os.Exit terminates the
process immediately and does not run deferred calls, so the deferred
logMutex.Unlock never produces an unlock event on this path. -/
def fatalSeq (en : Level → Bool) (msg : Str) : List LogEvent :=
  if en .fatalLevel = false then [.exitEv 1]
  else [.lockEv, .writeEv msg, .exitEv 1]

/-- Fatalf (lines 592-603): text is the fmt.Sprintf(format, v...) result. -/
def fatalfEvents (en : Level → Bool) (caller text : Str) : List LogEvent :=
  fatalSeq en (brk caller ++ ' ' :: text)

/-- Fatalln (lines 670-681). -/
def fatallnEvents (en : Level → Bool) (caller : Str) (args : List Val) :
    List LogEvent :=
  fatalSeq en (brk caller ++ ' ' :: sprintGo args)

/-- FatalKV (lines 748-759). -/
def fatalKVEvents (en : Level → Bool) (caller msg : Str) (kvs : List Val) :
    List LogEvent :=
  fatalSeq en (brk caller ++ ' ' :: msg ++ encodeFields kvs)

/-- For contrast, the event trace of a non-fatal operation such as Infof
(lines 547-557): lock, write, then the deferred unlock runs on the normal
return. -/
def infofEvents (en : Level → Bool) (caller text : Str) : List LogEvent :=
  if en .infoLevel = false then []
  else [.lockEv, .writeEv (brk caller ++ ' ' :: text), .unlockEv]

/-- The state of a Go log.Logger relevant to line formatting: the fixed
prefix and the Ldate / Ltime bits of its flags (log.LstdFlags sets both).
Modelled from the documented Go log package behavior: the prefix is printed
first (no Lmsgprefix), then the date and time when the corresponding flags
are set, then the message. -/
structure GoLogLogger where
  pfx : Str
  dateFlag : Bool
  timeFlag : Bool
deriving DecidableEq, Repr

/-- The line a Go log.Logger produces for one Println/Printf output call,
given the current date and time renderings: prefix, optional date, optional
time, message, newline. -/
def logLine (lg : GoLogLogger) (date timeS msg : Str) : Str :=
  lg.pfx ++
    (if lg.dateFlag then date ++ [' '] else []) ++
    (if lg.timeFlag then timeS ++ [' '] else []) ++
    msg ++ ['\n']

/-- newPlainLogger (lines 449-455): the production console fallback logger.
Both branches pass log.LstdFlags, so the date and time flags are set whether
or not a file writer is attached; the hasFileWriter argument only selects
the destination (io.MultiWriter of console and file, or console alone). -/
def newPlainLogger (level : Str) (hasFileWriter : Bool) : GoLogLogger :=
  { pfx := brk level ++ [' '], dateFlag := true, timeFlag := true }

/-- The ASCII escape character starting an ANSI color sequence. -/
def escChar : Char := Char.ofNat 27

/-- The scanning loop of plainFileWriter.Write (lines 463-486): walks the
bytes with an inEscape flag; an escape character directly followed by an
opening bracket is skipped and sets the flag; while the flag is set every
byte is skipped and a letter m clears it; all other bytes are copied. -/
def stripAux : Bool → Str → Str
  | _, [] => []
  | inEsc, c :: rest =>
    if c = escChar ∧ rest.head? = some '[' then
      stripAux true rest
    else if inEsc then
      (if c = 'm' then stripAux false rest else stripAux true rest)
    else c :: stripAux inEsc rest

/-- The color-stripping pass of plainFileWriter.Write over one write call's
buffer. -/
def stripAnsi (s : Str) : Str := stripAux false s

/-- plainFileWriter.Write (lines 463-486): writes the stripped bytes to the
wrapped file and returns the pair the wrapped write returns.  A successful
os.File write returns the length of the slice it was given, which here is
the stripped output, not the original input. -/
def plainFileWrite (s : Str) : Nat × Str :=
  let out := stripAnsi s
  (out.length, out)

/-- A well-formed colorized buffer, decomposed: plain runs free of the
escape character, alternating with complete ANSI sequences whose body
contains no terminating m.  This is the shape of every buffer the
development logger hands to plainFileWriter. -/
inductive AnsiChunk where
  | plainChunk (s : Str)
  | escChunk (body : Str)
deriving DecidableEq, Repr

/-- The bytes of one chunk. -/
def renderChunk : AnsiChunk → Str
  | .plainChunk s => s
  | .escChunk b => escChar :: '[' :: (b ++ ['m'])

/-- The bytes of a chunk sequence. -/
def renderChunks (cs : List AnsiChunk) : Str :=
  (cs.map renderChunk).flatten

/-- Well-formedness of a chunk decomposition: plain runs contain no escape
character, escape bodies contain no m. -/
def chunksWF (cs : List AnsiChunk) : Bool :=
  cs.all fun c =>
    match c with
    | .plainChunk s => decide (escChar ∉ s)
    | .escChunk b => decide ('m' ∉ b)

/-- The concatenation of the plain runs of a chunk sequence: the bytes that
are not part of any ANSI sequence, in order. -/
def plainConcat (cs : List AnsiChunk) : Str :=
  (cs.map fun c =>
    match c with
    | .plainChunk s => s
    | .escChunk _ => ([] : Str)).flatten

/-- Whether a buffer contains the two-byte start of an ANSI escape sequence
(the escape character directly followed by an opening bracket), which is
what makes the stripping loop drop bytes. -/
def containsEscBracket : Str → Bool
  | c1 :: c2 :: rest => (c1 = escChar && c2 = '[') || containsEscBracket (c2 :: rest)
  | _ => false

/-- Per-thread state of the concurrency model for the per-severity logging
operations: how many of its messages the thread has completely written, and,
while it is inside the critical section, the bytes of its in-flight record
not yet written to the sink. -/
structure ThreadSt where
  sent : Nat
  pending : Option Str
deriving DecidableEq, Repr

/-- Global state of the concurrency model: the state of each of the N
threads, the holder of the process-wide logMutex (none when free), and the
bytes received so far by the shared captured sink. -/
structure SysSt (N : Nat) where
  thr : Fin N → ThreadSt
  mutex : Option (Fin N)
  sink : Str

/-- Pointwise update of one thread's state. -/
def updThr {N : Nat} (f : Fin N → ThreadSt) (t : Fin N) (v : ThreadSt) :
    Fin N → ThreadSt :=
  fun i => if i = t then v else f i

/-- Interleaving semantics of N concurrent callers each emitting M messages
through the per-severity operations (Infof and the like, lines 547-557):
rec t j is the full composed output line of thread t's j-th call, the
formatted bytes the log.Logger hands to the shared sink in the single write
it performs while the caller holds logMutex.  A thread may acquire the free
mutex to start its next call (logMutex.Lock); the holder writes its record
to the sink one byte at a time (any interleaving at byte granularity is
allowed for the scheduler, but only the holder can write); when its record
is exhausted the holder releases the mutex and its call returns (the
deferred logMutex.Unlock).  Threads that are not holding the mutex cannot
touch the sink. -/
inductive Step (N M : Nat) (rec : Fin N → Nat → Str) :
    SysSt N → SysSt N → Prop where
  | lock (s : SysSt N) (t : Fin N)
      (hm : s.mutex = none) (hp : (s.thr t).pending = none)
      (hsent : (s.thr t).sent < M) :
      Step N M rec s
        ⟨updThr s.thr t ⟨(s.thr t).sent, some (rec t (s.thr t).sent)⟩,
          some t, s.sink⟩
  | emit (s : SysSt N) (t : Fin N) (c : Char) (cs : Str)
      (hm : s.mutex = some t) (hp : (s.thr t).pending = some (c :: cs)) :
      Step N M rec s
        ⟨updThr s.thr t ⟨(s.thr t).sent, some cs⟩, some t, s.sink ++ [c]⟩
  | unlock (s : SysSt N) (t : Fin N)
      (hm : s.mutex = some t) (hp : (s.thr t).pending = some []) :
      Step N M rec s
        ⟨updThr s.thr t ⟨(s.thr t).sent + 1, none⟩, none, s.sink⟩

/-- The start state: no messages written, mutex free, empty sink. -/
def initSt (N : Nat) : SysSt N := ⟨fun _ => ⟨0, none⟩, none, []⟩

/-- Reachability from the start state under any interleaving. -/
def Reach (N M : Nat) (rec : Fin N → Nat → Str) (s : SysSt N) : Prop :=
  Relation.ReflTransGen (Step N M rec) (initSt N) s

/-- A finished execution: every thread has emitted all M of its messages
and the mutex is free. -/
def FinalSt (N M : Nat) (s : SysSt N) : Prop :=
  (∀ t, s.thr t = ⟨M, none⟩) ∧ s.mutex = none

/-- Decompose sink contents into newline-terminated lines (a trailing
fragment without a newline, which never occurs in a finished execution,
would be kept as a final piece). -/
def splitRecords : Str → List Str
  | [] => []
  | c :: rest =>
    if c = '\n' then ['\n'] :: splitRecords rest
    else
      match splitRecords rest with
      | [] => [[c]]
      | r :: rs => (c :: r) :: rs

/-- All (thread, message index) pairs of the workload. -/
def allPairs (N M : Nat) : List (Fin N × Nat) :=
  (List.finRange N).flatMap fun t => (List.range M).map fun j => (t, j)

/-- Invariant of the concurrency model: thread counters stay within M, and
the sink always consists of the complete records of the already-finished
calls (one record per (thread, index) pair with index below the thread's
counter, each pair occurring exactly once, in some order) followed by the
already-written part of the mutex holder's in-flight record; when the mutex
is free no record is in flight and the sink is exactly the finished
records. -/
def LogInv (N M : Nat) (rec : Fin N → Nat → Str) (s : SysSt N) : Prop :=
  (∀ t, (s.thr t).sent ≤ M) ∧
  ∃ done : List (Fin N × Nat),
    done.Nodup ∧
    (∀ t j, (t, j) ∈ done ↔ j < (s.thr t).sent) ∧
    (match s.mutex with
     | none =>
        (∀ t, (s.thr t).pending = none) ∧
        s.sink = (done.map fun p => rec p.1 p.2).flatten
     | some t0 =>
        (s.thr t0).sent < M ∧
        (∀ t, t ≠ t0 → (s.thr t).pending = none) ∧
        ∃ w rem, (s.thr t0).pending = some rem ∧
          rec t0 (s.thr t0).sent = w ++ rem ∧
          s.sink = (done.map fun p => rec p.1 p.2).flatten ++ w)

-- ### Theorems

theorem foldl_tokenLevel_true (ps : List Str) (m : Level → Bool) (l : Level) :
    (ps.foldl
      (fun m p =>
        match tokenLevel p with
        | some l => updateLevel m l
        | none => m)
      m) l = true ↔ m l = true ∨ ∃ p ∈ ps, tokenLevel p = some l := by
  induction ps generalizing m with
  | nil => simp
  | cons q qs ih =>
    simp only [List.foldl_cons, List.mem_cons]
    rw [ih]
    cases hq : tokenLevel q with
    | none =>
      simp only [hq]
      constructor
      · rintro (h | ⟨p, hp, hpl⟩)
        · exact Or.inl h
        · exact Or.inr ⟨p, Or.inr hp, hpl⟩
      · rintro (h | ⟨p, (rfl | hp), hpl⟩)
        · exact Or.inl h
        · rw [hq] at hpl; cases hpl
        · exact Or.inr ⟨p, hp, hpl⟩
    | some l0 =>
      simp only [hq, updateLevel]
      constructor
      · rintro (h | ⟨p, hp, hpl⟩)
        · by_cases hl : l = l0
          · exact Or.inr ⟨q, Or.inl rfl, by rw [hq, hl]⟩
          · simp only [if_neg hl] at h
            exact Or.inl h
        · exact Or.inr ⟨p, Or.inr hp, hpl⟩
      · rintro (h | ⟨p, (rfl | hp), hpl⟩)
        · by_cases hl : l = l0 <;> simp [hl, h]
        · rw [hq] at hpl
          injection hpl with h0
          simp [h0]
        · exact Or.inr ⟨p, hp, hpl⟩

theorem tokenLevel_eq_some_iff (p : Str) (l : Level) :
    tokenLevel p = some l ↔
      (toUpperGo (trimGo p) = levelName l ∨
        (l = .warnLevel ∧ toUpperGo (trimGo p) = str2 "WARNING")) := by
  unfold tokenLevel
  cases l <;> simp only [levelName] <;> split_ifs <;> simp_all [str2]

/-- Claim C3: a severity L is enabled in the set produced by parseLevels(S)
exactly when S trims to the empty string, or the (trimmed, upper-cased)
form of some comma-separated token of S equals the name of L, with WARNING
accepted as a synonym for WARN; unrecognized tokens are ignored and the
function is total (never an error). -/
theorem parseLevels_enabled_iff (s : Str) (l : Level) :
    parseLevels s l = true ↔
      trimGo s = [] ∨
        ∃ p ∈ splitOnComma (trimGo s),
          toUpperGo (trimGo p) = levelName l ∨
            (l = .warnLevel ∧ toUpperGo (trimGo p) = str2 "WARNING") := by
  unfold parseLevels
  by_cases ht : trimGo s = []
  · simp [ht, allEnabled]
  · rw [if_neg ht, foldl_tokenLevel_true]
    simp only [emptyLevels, Bool.false_eq_true, false_or, ht, false_or]
    constructor
    · rintro ⟨p, hp, hpl⟩
      exact ⟨p, hp, (tokenLevel_eq_some_iff p l).1 hpl⟩
    · rintro ⟨p, hp, hpl⟩
      exact ⟨p, hp, (tokenLevel_eq_some_iff p l).2 hpl⟩

theorem twoStepInduction {α : Type} {P : List α → Prop} (h0 : P [])
    (h1 : ∀ a, P [a]) (h2 : ∀ a b l, P l → P (a :: b :: l)) : ∀ l, P l := by
  have key : ∀ l, P l ∧ ∀ a, P (a :: l) := by
    intro l
    induction l with
    | nil => exact ⟨h0, h1⟩
    | cons b t ih => exact ⟨ih.2 b, fun a => h2 a b t ih.1⟩
  exact fun l => (key l).1

theorem encodeParts_eq_goodPairs (kvs : List Val) :
    encodeParts kvs = (goodPairs kvs).map fun pr => pr.1 ++ '=' :: render pr.2 := by
  induction kvs using twoStepInduction with
  | h0 => rfl
  | h1 a => cases a <;> rfl
  | h2 a b l ih => cases a <;> simp [encodeParts, goodPairs, ih]

/-- Claim C4: encodeFields walks its input two items at a time, silently
dropping pairs whose first item is not a string and a trailing item with no
partner (captured by goodPairs); when no pair survives the result is empty,
otherwise it is a single leading space followed by the space-joined
key=value tokens of the surviving pairs in input order; in particular the
three evaluations of the claim hold. -/
theorem encodeFields_spec :
    (∀ kvs : List Val,
      encodeFields kvs =
        (if goodPairs kvs = [] then []
         else ' ' ::
           joinWithSpace ((goodPairs kvs).map fun pr => pr.1 ++ '=' :: render pr.2))) ∧
    encodeFields [Val.vStr (str2 "a"), Val.vInt 1, Val.vStr (str2 "b"), Val.vInt 2] =
      str2 " a=1 b=2" ∧
    encodeFields [] = str2 "" ∧
    encodeFields [Val.vInt 42, Val.vStr (str2 "x")] = str2 "" := by
  refine ⟨?_, by decide, by decide, by decide⟩
  intro kvs
  unfold encodeFields
  by_cases hk : kvs = []
  · subst hk; simp [goodPairs]
  · rw [if_neg (by simpa [List.isEmpty_iff] using hk)]
    rw [encodeParts_eq_goodPairs]
    by_cases hg : goodPairs kvs = []
    · simp [hg]
    · rw [if_neg hg, if_neg (by simpa [List.isEmpty_iff] using hg)]

theorem statusCodeToLevel_ne_debug_fatal (code : Int) :
    statusCodeToLevel code ≠ .debugLevel ∧ statusCodeToLevel code ≠ .fatalLevel := by
  unfold statusCodeToLevel
  split_ifs <;> simp

/-- Claim C5: Api selects the ERROR severity for status codes at least 500,
WARN for codes in [400, 500), INFO for codes below 400 (redirects included),
and, when the selected severity is enabled, writes through it the message
[caller] [statusCode] msg with the bracketed status code rendered in
decimal. -/
theorem Api_status_mapping (en : Level → Bool) (caller : Str) (code : Int)
    (msg : Str) :
    ((500 ≤ code → statusCodeToLevel code = .errorLevel) ∧
     (400 ≤ code ∧ code < 500 → statusCodeToLevel code = .warnLevel) ∧
     (code < 400 → statusCodeToLevel code = .infoLevel)) ∧
    (en (statusCodeToLevel code) = true →
      Api en caller code msg =
        some (statusCodeToLevel code,
          brk caller ++ ' ' :: brk (intToStr code) ++ ' ' :: msg)) := by
  constructor
  · refine ⟨fun h => ?_, fun h => ?_, fun h => ?_⟩ <;>
      (unfold statusCodeToLevel; split_ifs <;> first | rfl | omega)
  · intro hen
    have hne := statusCodeToLevel_ne_debug_fatal code
    cases hl : statusCodeToLevel code with
    | debugLevel => exact absurd hl hne.1
    | fatalLevel => exact absurd hl hne.2
    | infoLevel => rw [hl] at hen; simp [Api, hl, hen]
    | warnLevel => rw [hl] at hen; simp [Api, hl, hen]
    | errorLevel => rw [hl] at hen; simp [Api, hl, hen]

/-- Witness for C5 at status code 404: a concrete WARN-severity record. -/
theorem Api_status_mapping_witness :
    Api allEnabled (str2 "main.handler:12") 404 (str2 "not found") =
      some (.warnLevel, str2 "[main.handler:12] [404] not found") ∧
    statusCodeToLevel 404 = .warnLevel := by
  have h :=
    (Api_status_mapping allEnabled (str2 "main.handler:12") 404 (str2 "not found")).2 rfl
  exact ⟨h.trans (by decide), by decide⟩

/-- Counterexample to claim C7: the Println-style helpers do not concatenate
all arguments without separator; for the two integer arguments 1, 2 the
composed message contains a space between them (fmt.Sprint inserts one
between two operands when neither is a string). -/
theorem infoln_not_separatorless :
    sprintGo [Val.vInt 1, Val.vInt 2] = str2 "1 2" ∧
    lnMessage (str2 "f:1") [Val.vInt 1, Val.vInt 2] ≠
      brk (str2 "f:1") ++ ' ' :: (render (Val.vInt 1) ++ render (Val.vInt 2)) := by
  exact ⟨by decide, by decide⟩

/-- Claim C7 as amended: the Println-style plain operations build the
message by concatenating the natural text forms of the arguments, inserting
a single space exactly between two consecutive arguments neither of which
is a string; in particular consecutive arguments at least one of which is a
string render adjacent, and an all-string argument list renders as the bare
concatenation. -/
theorem sprint_separator_rule :
    (∀ (v w : Val) (rest : List Val), (isStrVal v = true ∨ isStrVal w = true) →
        sprintGo (v :: w :: rest) = render v ++ sprintGo (w :: rest)) ∧
    (∀ (v w : Val) (rest : List Val), isStrVal v = false → isStrVal w = false →
        sprintGo (v :: w :: rest) = render v ++ ' ' :: sprintGo (w :: rest)) ∧
    (∀ args : List Val, (∀ a ∈ args, isStrVal a = true) →
        sprintGo args = (args.map render).flatten) ∧
    (∀ (caller : Str) (args : List Val),
        lnMessage caller args = brk caller ++ ' ' :: sprintGo args) := by
  refine ⟨?_, ?_, ?_, fun caller args => rfl⟩
  · rintro v w rest (h | h) <;> simp [sprintGo, h]
  · intro v w rest hv hw
    simp [sprintGo, hv, hw]
  · intro args h
    induction args with
    | nil => rfl
    | cons a rest ih =>
      cases rest with
      | nil => simp [sprintGo]
      | cons b t =>
        have ha : isStrVal a = true := h a (List.mem_cons_self ..)
        have ht : ∀ x ∈ b :: t, isStrVal x = true :=
          fun x hx => h x (List.mem_cons_of_mem _ hx)
        simp [sprintGo, ha, ih ht]

/-- Witness for the amended C7: two string arguments render adjacent. -/
theorem sprint_separator_rule_witness :
    sprintGo [Val.vStr (str2 "ab"), Val.vStr (str2 "cd")] = str2 "abcd" := by
  have h := sprint_separator_rule.2.2.1
    [Val.vStr (str2 "ab"), Val.vStr (str2 "cd")] (by decide)
  exact h.trans (by decide)

/-- Counterexample to claim C8: initialization with LOGGER_LEVELS absent or
empty does not reset the enabled-set; a filter left behind by a previous
initialization (here: only ERROR enabled) survives, so INFO stays disabled
instead of the claimed all-enabled state. -/
theorem initLevels_empty_env_keeps_filter :
    parseLevels (str2 "ERROR") Level.errorLevel = true ∧
    initLevels [] (parseLevels (str2 "ERROR")) Level.infoLevel = false := by
  exact ⟨by decide, by decide⟩

/-- Claim C8 as amended: when LOGGER_LEVELS is absent or empty, Init and
InitWithFile leave the enabled-set exactly as it was (no reset takes
place); all five severities are enabled after such a call only because the
package-level default already enables them, as in a fresh process; a
non-empty value replaces the set with the parsed filter. -/
theorem initLevels_empty_env_behavior :
    (∀ prev : Level → Bool, initLevels [] prev = prev) ∧
    (∀ l, initLevels [] defaultEnabledLevels l = true) ∧
    (∀ (env : Str) (prev : Level → Bool), env ≠ [] →
      initLevels env prev = parseLevels env) := by
  refine ⟨fun prev => ?_, fun l => ?_, fun env prev h => ?_⟩
  · simp [initLevels]
  · simp [initLevels, defaultEnabledLevels]
  · simp [initLevels, h]

/-- Witness for the amended C8 at a concrete non-empty filter. -/
theorem initLevels_empty_env_behavior_witness :
    initLevels (str2 "ERROR") allEnabled = parseLevels (str2 "ERROR") := by
  exact initLevels_empty_env_behavior.2.2 (str2 "ERROR") allEnabled (by decide)

/-- Counterexample to claim C2: with FatalLevel enabled, the event trace of
Fatalf contains no unlock event at all — os.Exit(1) runs while logMutex is
still held, because Go os.Exit does not run the deferred unlock — so the
termination does not occur after the mutex has been released. -/
theorem fatalf_exit_without_unlock :
    fatalfEvents allEnabled (str2 "main.run:9") (str2 "boom") =
      [.lockEv, .writeEv (str2 "[main.run:9] boom"), .exitEv 1] ∧
    LogEvent.unlockEv ∉ fatalfEvents allEnabled (str2 "main.run:9") (str2 "boom") := by
  exact ⟨by decide, by decide⟩

/-- Claim C2 as amended: for every FATAL-family call made while FatalLevel
is enabled, the composed record is written through the Fatal backend and
the process then terminates with exit status 1, the termination occurring
after the write completes but with the process-wide log mutex still held
(the deferred unlock is bypassed by os.Exit, so no unlock event ever
occurs on this path). -/
theorem fatal_write_then_exit_lock_held (en : Level → Bool)
    (caller text msg : Str) (args kvs : List Val)
    (h : en .fatalLevel = true) :
    fatalfEvents en caller text =
      [.lockEv, .writeEv (brk caller ++ ' ' :: text), .exitEv 1] ∧
    fatallnEvents en caller args =
      [.lockEv, .writeEv (brk caller ++ ' ' :: sprintGo args), .exitEv 1] ∧
    fatalKVEvents en caller msg kvs =
      [.lockEv, .writeEv (brk caller ++ ' ' :: msg ++ encodeFields kvs), .exitEv 1] ∧
    LogEvent.unlockEv ∉ fatalfEvents en caller text := by
  refine ⟨?_, ?_, ?_, ?_⟩ <;>
    simp [fatalfEvents, fatallnEvents, fatalKVEvents, fatalSeq, h]

/-- Witness for the amended C2 at concrete inputs. -/
theorem fatal_write_then_exit_lock_held_witness :
    fatalKVEvents allEnabled (str2 "main.go:3") (str2 "dying")
        [Val.vStr (str2 "k"), Val.vInt 7] =
      [.lockEv, .writeEv (str2 "[main.go:3] dying k=7"), .exitEv 1] := by
  have h := (fatal_write_then_exit_lock_held allEnabled (str2 "main.go:3")
    (str2 "t") (str2 "dying") [] [Val.vStr (str2 "k"), Val.vInt 7] rfl).2.2.1
  exact h.trans (by decide)

/-- Claim C6 concerns a code bug: the production plain-console logger built
without a file writer (newPlainLogger with log.LstdFlags in both branches)
stamps every line with date and time, so the no-file console line is the
timestamped form, not the claimed stampless
level-prefix / caller / message form. -/
theorem newPlainLogger_noFile_timestamped :
    (newPlainLogger (str2 "INFO") false).dateFlag = true ∧
    (newPlainLogger (str2 "INFO") false).timeFlag = true ∧
    logLine (newPlainLogger (str2 "INFO") false) (str2 "2025/10/26")
        (str2 "10:30:45") (str2 "[main.main:15] hello") =
      str2 "[INFO] 2025/10/26 10:30:45 [main.main:15] hello\n" ∧
    str2 "[INFO] 2025/10/26 10:30:45 [main.main:15] hello\n" ≠
      str2 "[INFO] [main.main:15] hello\n" := by
  exact ⟨rfl, rfl, by decide, by decide⟩

theorem stripAux_cons (inEsc : Bool) (c : Char) (rest : Str) :
    stripAux inEsc (c :: rest) =
      if c = escChar ∧ rest.head? = some '[' then stripAux true rest
      else if inEsc then
        (if c = 'm' then stripAux false rest else stripAux true rest)
      else c :: stripAux inEsc rest := rfl

theorem stripAux_append_plain (s : Str) :
    ∀ rest : Str, escChar ∉ s → stripAux false (s ++ rest) = s ++ stripAux false rest := by
  induction s with
  | nil => intro rest h; rfl
  | cons c t ih =>
    intro rest h
    have hc : ¬(c = escChar) := fun hcc => h (hcc ▸ List.mem_cons_self ..)
    have ht : escChar ∉ t := fun hm => h (List.mem_cons_of_mem _ hm)
    rw [List.cons_append, stripAux_cons]
    rw [if_neg (fun hh => hc hh.1)]
    rw [if_neg (by simp)]
    rw [ih rest ht]
    rfl

theorem stripAux_esc_skip (b : Str) :
    ∀ rest : Str, 'm' ∉ b → stripAux true (b ++ 'm' :: rest) = stripAux false rest := by
  induction b with
  | nil =>
    intro rest h
    show stripAux true ('m' :: rest) = _
    rw [stripAux_cons]
    rw [if_neg (fun hh => absurd hh.1 (by decide))]
    rw [if_pos rfl, if_pos rfl]
  | cons c t ih =>
    intro rest h
    have hc : ¬(c = 'm') := fun hcc => h (hcc ▸ List.mem_cons_self ..)
    have ht : 'm' ∉ t := fun hm => h (List.mem_cons_of_mem _ hm)
    rw [List.cons_append, stripAux_cons]
    by_cases h1 : (c = escChar ∧ (t ++ 'm' :: rest).head? = some '[')
    · rw [if_pos h1]
      exact ih rest ht
    · rw [if_neg h1, if_pos rfl, if_neg hc]
      exact ih rest ht

theorem stripAnsi_renderChunks (cs : List AnsiChunk) (h : chunksWF cs = true) :
    stripAnsi (renderChunks cs) = plainConcat cs := by
  induction cs with
  | nil => rfl
  | cons c rest ih =>
    have hrest : chunksWF rest = true := by
      simp only [chunksWF, List.all_cons, Bool.and_eq_true] at h
      exact h.2
    have hc := by
      simp only [chunksWF, List.all_cons, Bool.and_eq_true] at h
      exact h.1
    cases c with
    | plainChunk s =>
      have hs : escChar ∉ s := by simpa using hc
      show stripAux false (s ++ renderChunks rest) = s ++ plainConcat rest
      rw [stripAux_append_plain s (renderChunks rest) hs]
      exact congrArg (fun x => s ++ x) (ih hrest)
    | escChunk b =>
      have hb : 'm' ∉ b := by simpa using hc
      show stripAux false (escChar :: '[' :: (b ++ ['m']) ++ renderChunks rest) =
        plainConcat rest
      have hform : escChar :: '[' :: (b ++ ['m']) ++ renderChunks rest =
          escChar :: '[' :: (b ++ 'm' :: renderChunks rest) := by simp
      rw [hform, stripAux_cons, if_pos ⟨rfl, rfl⟩, stripAux_cons]
      rw [if_neg (fun hh => absurd hh.1 (by decide))]
      rw [if_pos rfl, if_neg (by decide)]
      rw [stripAux_esc_skip b (renderChunks rest) hb]
      exact ih hrest

/-- Claim C9 as amended: for every single write whose buffer decomposes into
escape-free plain runs and complete ANSI sequences of the form
ESC [ body m with m-free bodies — the shape of every buffer the colorized
development logger produces — the file relay removes every ANSI sequence in
one pass, preserves all other bytes in their original order, and the
resulting bytes, which are what reach the file handle, contain no escape
character and hence no ANSI escape sequence.  (For arbitrary byte sequences
the no-ANSI-in-output guarantee fails; see the counterexample.) -/
theorem plainFileWriter_strips_wellformed (cs : List AnsiChunk)
    (h : chunksWF cs = true) :
    stripAnsi (renderChunks cs) = plainConcat cs ∧
    escChar ∉ stripAnsi (renderChunks cs) ∧
    (plainFileWrite (renderChunks cs)).2 = plainConcat cs := by
  have hmain := stripAnsi_renderChunks cs h
  refine ⟨hmain, ?_, hmain⟩
  rw [hmain]
  intro hmem
  simp only [plainConcat, List.mem_flatten, List.mem_map] at hmem
  obtain ⟨piece, ⟨ch, hch, hpiece⟩, hin⟩ := hmem
  cases ch with
  | plainChunk s =>
    simp only [chunksWF, List.all_eq_true] at h
    have := h _ hch
    simp only [decide_eq_true_eq] at this
    rw [← hpiece] at hin
    exact this hin
  | escChunk b =>
    rw [← hpiece] at hin
    simp at hin

/-- Witness for the amended C9: a concrete colorized record, ESC[32m[INFO]
hello ESC[0m, reaches the file with both ANSI sequences removed and all
other bytes intact. -/
theorem plainFileWriter_strips_wellformed_witness :
    stripAnsi (renderChunks
      [AnsiChunk.escChunk (str2 "32"),
       AnsiChunk.plainChunk (str2 "[INFO] hello"),
       AnsiChunk.escChunk (str2 "0")]) = str2 "[INFO] hello" := by
  have h := (plainFileWriter_strips_wellformed
    [AnsiChunk.escChunk (str2 "32"),
     AnsiChunk.plainChunk (str2 "[INFO] hello"),
     AnsiChunk.escChunk (str2 "0")] (by decide)).1
  exact h.trans (by decide)

/-- Counterexample to claim C9 as stated for arbitrary byte sequences: the
six-byte input ESC ESC [ m [ m contains one ANSI sequence (its middle four
bytes ESC [ m start at the second byte); the stripper removes it, but the
three surviving bytes ESC, [, m reassemble into a complete ANSI escape
sequence in the file output, so an ANSI escape sequence does appear in the
log file contents. -/
theorem stripAnsi_adversarial :
    stripAnsi [escChar, escChar, '[', 'm', '[', 'm'] = [escChar, '[', 'm'] ∧
    (∃ pre mid post : Str,
      stripAnsi [escChar, escChar, '[', 'm', '[', 'm'] =
        pre ++ escChar :: '[' :: (mid ++ 'm' :: post)) := by
  exact ⟨by decide, ⟨[], [], [], by decide⟩⟩

theorem stripAux_length_le (s : Str) : ∀ b : Bool, (stripAux b s).length ≤ s.length := by
  induction s with
  | nil => intro b; simp [stripAux]
  | cons c t ih =>
    intro b
    have hT := ih true
    have hF := ih false
    have hB := ih b
    rw [stripAux_cons]
    split_ifs <;> simp only [List.length_cons] <;> omega

theorem stripAux_length_lt (s : Str) (h : containsEscBracket s = true) :
    ∀ b : Bool, (stripAux b s).length < s.length := by
  induction s with
  | nil => simp [containsEscBracket] at h
  | cons c t ih =>
    intro b
    cases t with
    | nil => simp [containsEscBracket] at h
    | cons c2 r =>
      have hT := stripAux_length_le (c2 :: r) true
      have hF := stripAux_length_le (c2 :: r) false
      have e1 : (c :: c2 :: r).length = (c2 :: r).length + 1 := by simp
      rw [stripAux_cons]
      by_cases h1 : (c = escChar ∧ (c2 :: r).head? = some '[')
      · rw [if_pos h1]
        omega
      · have htail : containsEscBracket (c2 :: r) = true := by
          simp only [containsEscBracket, Bool.or_eq_true, Bool.and_eq_true,
            decide_eq_true_eq] at h
          rcases h with ⟨hq1, hq2⟩ | hq
          · exact absurd ⟨hq1, by simp [hq2]⟩ h1
          · exact hq
        have hLT := ih htail true
        have hLF := ih htail false
        have hLB := ih htail b
        have e2 : (c :: stripAux b (c2 :: r)).length =
            (stripAux b (c2 :: r)).length + 1 := by simp
        rw [if_neg h1]
        split_ifs <;> omega

theorem containsEscBracket_of_decomp (pre : Str) :
    ∀ r : Str, containsEscBracket (pre ++ escChar :: '[' :: r) = true := by
  induction pre with
  | nil =>
    intro r
    simp [containsEscBracket]
  | cons c t ih =>
    intro r
    have h2 := ih r
    rw [List.cons_append]
    cases hsplit : t ++ escChar :: '[' :: r with
    | nil => simp at hsplit
    | cons x xs =>
      rw [hsplit] at h2
      simp only [containsEscBracket, Bool.or_eq_true]
      exact Or.inr h2

/-- Claim C10: plainFileWriter.Write returns the byte count of the
color-stripped output it wrote, not the length of its input; for every
input buffer containing an ANSI escape sequence the returned count is
strictly less than the input length, so the io.MultiWriter teeing console
and file observes a short write on every colorized record. -/
theorem plainFileWrite_short_count (s pre mid post : Str)
    (h : s = pre ++ escChar :: '[' :: (mid ++ 'm' :: post)) :
    (plainFileWrite s).1 = (stripAnsi s).length ∧
    (plainFileWrite s).1 < s.length := by
  refine ⟨rfl, ?_⟩
  have hcontains : containsEscBracket s = true := by
    rw [h]; exact containsEscBracket_of_decomp pre (mid ++ 'm' :: post)
  exact stripAux_length_lt s hcontains false

/-- Witness for C10: the colorized INFO record returns a count 8 bytes
short of its input. -/
theorem plainFileWrite_short_count_witness :
    (plainFileWrite (str2 "\x1b[32m[INFO] hi\x1b[0m")).1 <
      (str2 "\x1b[32m[INFO] hi\x1b[0m").length := by
  exact (plainFileWrite_short_count (str2 "\x1b[32m[INFO] hi\x1b[0m")
    [] (str2 "32") (str2 "[INFO] hi\x1b[0m") (by decide)).2

theorem updThr_self {N : Nat} (f : Fin N → ThreadSt) (t : Fin N) (v : ThreadSt) :
    updThr f t v t = v := by
  simp [updThr]

theorem updThr_other {N : Nat} (f : Fin N → ThreadSt) (t u : Fin N) (v : ThreadSt)
    (h : u ≠ t) : updThr f t v u = f u := by
  simp [updThr, h]

theorem inv_initSt (N M : Nat) (rec : Fin N → Nat → Str) :
    LogInv N M rec (initSt N) := by
  refine ⟨fun t => Nat.zero_le M, [], List.nodup_nil, ?_, ?_, ?_⟩
  · intro t j
    simp [initSt]
  · intro t
    rfl
  · rfl

theorem splitRecords_cons (c : Char) (rest : Str) :
    splitRecords (c :: rest) =
      if c = '\n' then ['\n'] :: splitRecords rest
      else
        match splitRecords rest with
        | [] => [[c]]
        | r :: rs => (c :: r) :: rs := rfl

theorem splitRecords_line (b : Str) :
    ∀ s : Str, '\n' ∉ b → splitRecords (b ++ '\n' :: s) = (b ++ ['\n']) :: splitRecords s := by
  induction b with
  | nil =>
    intro s h
    rw [List.nil_append, splitRecords_cons, if_pos rfl]
    rfl
  | cons c t ih =>
    intro s h
    have hc : ¬(c = '\n') := fun hcc => h (hcc ▸ List.mem_cons_self ..)
    have ht : '\n' ∉ t := fun hm => h (List.mem_cons_of_mem _ hm)
    rw [List.cons_append, splitRecords_cons, if_neg hc, ih s ht]
    rfl

theorem splitRecords_flatten (L : List Str)
    (h : ∀ r ∈ L, ∃ b, r = b ++ ['\n'] ∧ '\n' ∉ b) :
    splitRecords L.flatten = L := by
  induction L with
  | nil => rfl
  | cons r rest ih =>
    obtain ⟨b, hb, hnb⟩ := h r (List.mem_cons_self ..)
    have hrest := ih fun q hq => h q (List.mem_cons_of_mem _ hq)
    rw [List.flatten_cons, hb]
    have : (b ++ ['\n']) ++ rest.flatten = b ++ '\n' :: rest.flatten := by simp
    rw [this, splitRecords_line b rest.flatten hnb, hrest, ← hb]

theorem allPairs_nodup (N M : Nat) : (allPairs N M).Nodup := by
  unfold allPairs
  rw [List.nodup_flatMap]
  constructor
  · intro t ht
    refine (List.nodup_range M).map ?_
    intro a b hab
    exact congrArg Prod.snd hab
  · have key : ∀ a b : Fin N, a ≠ b →
        (Function.onFun List.Disjoint fun t => (List.range M).map fun j => (t, j)) a b := by
      intro a b hab
      intro p hpa hpb
      simp only [List.mem_map, List.mem_range] at hpa hpb
      obtain ⟨j1, -, hj1⟩ := hpa
      obtain ⟨j2, -, hj2⟩ := hpb
      rw [← hj1] at hj2
      injection hj2 with h1 h2
      exact absurd h1 (Ne.symm hab)
    exact (List.nodup_finRange N).imp fun hab => key _ _ hab

theorem allPairs_mem (N M : Nat) (t : Fin N) (j : Nat) :
    (t, j) ∈ allPairs N M ↔ j < M := by
  unfold allPairs
  constructor
  · intro hmem
    rw [List.mem_flatMap] at hmem
    obtain ⟨u, -, hinner⟩ := hmem
    rw [List.mem_map] at hinner
    obtain ⟨j2, hj2, heq⟩ := hinner
    injection heq with h1 h2
    rw [← h2]
    exact List.mem_range.1 hj2
  · intro hj
    rw [List.mem_flatMap]
    exact ⟨t, List.mem_finRange t,
      List.mem_map.2 ⟨j, List.mem_range.2 hj, rfl⟩⟩

theorem allPairs_length (N M : Nat) : (allPairs N M).length = N * M := by
  unfold allPairs
  rw [List.length_flatMap]
  have hrw : (List.map (List.length ∘ fun t => (List.range M).map fun j => (t, j))
      (List.finRange N)) = List.map (fun _ => M) (List.finRange N) := by
    refine List.map_congr_left ?_
    intro t ht
    simp
  rw [hrw, List.map_const', List.sum_replicate, List.length_finRange,
    smul_eq_mul]

theorem inv_step {N M : Nat} {rec : Fin N → Nat → Str} {s s2 : SysSt N}
    (hs : LogInv N M rec s) (hstep : Step N M rec s s2) : LogInv N M rec s2 := by
  obtain ⟨hbound, done, hnodup, hmem, hrest⟩ := hs
  cases hstep with
  | lock t hm hp hsent =>
    rw [hm] at hrest
    obtain ⟨hpend, hsink⟩ := hrest
    refine ⟨?_, done, hnodup, ?_, ?_⟩
    · intro u
      by_cases hu : u = t
      · subst hu
        simp only [updThr_self]
        exact hbound u
      · simp only [updThr_other _ _ _ _ hu]
        exact hbound u
    · intro u j
      by_cases hu : u = t
      · subst hu
        simp only [updThr_self]
        exact hmem u j
      · simp only [updThr_other _ _ _ _ hu]
        exact hmem u j
    · refine ⟨?_, ?_, [], rec t (s.thr t).sent, ?_, ?_, ?_⟩
      · simp only [updThr_self]
        exact hsent
      · intro u hu
        simp only [updThr_other _ _ _ _ hu]
        exact hpend u
      · simp only [updThr_self]
      · simp only [updThr_self]
        rfl
      · rw [hsink]
        simp
  | emit t c cs hm hp =>
    rw [hm] at hrest
    obtain ⟨hsent, hpend, w, rem, hpd, hw, hsink⟩ := hrest
    rw [hp] at hpd
    injection hpd with heq
    subst heq
    refine ⟨?_, done, hnodup, ?_, ?_⟩
    · intro u
      by_cases hu : u = t
      · subst hu
        simp only [updThr_self]
        exact hbound u
      · simp only [updThr_other _ _ _ _ hu]
        exact hbound u
    · intro u j
      by_cases hu : u = t
      · subst hu
        simp only [updThr_self]
        exact hmem u j
      · simp only [updThr_other _ _ _ _ hu]
        exact hmem u j
    · refine ⟨?_, ?_, w ++ [c], cs, ?_, ?_, ?_⟩
      · simp only [updThr_self]
        exact hsent
      · intro u hu
        simp only [updThr_other _ _ _ _ hu]
        exact hpend u hu
      · simp only [updThr_self]
      · simp only [updThr_self]; rw [hw]
        simp
      · rw [hsink]
        simp
  | unlock t hm hp =>
    rw [hm] at hrest
    obtain ⟨hsent, hpend, w, rem, hpd, hw, hsink⟩ := hrest
    rw [hp] at hpd
    injection hpd with heq
    subst heq
    have hwe : w = rec t (s.thr t).sent := by simpa using hw.symm
    have hnotin : (t, (s.thr t).sent) ∉ done := fun hin =>
      absurd ((hmem t ((s.thr t).sent)).1 hin) (lt_irrefl _)
    refine ⟨?_, done ++ [(t, (s.thr t).sent)], ?_, ?_, ?_⟩
    · intro u
      by_cases hu : u = t
      · subst hu
        simp only [updThr_self]
        exact hsent
      · simp only [updThr_other _ _ _ _ hu]
        exact hbound u
    · rw [List.nodup_append]
      refine ⟨hnodup, List.nodup_singleton _, ?_⟩
      intro a ha hax
      rw [List.mem_singleton] at hax
      subst hax
      exact hnotin ha
    · intro u j
      by_cases hu : u = t
      · subst hu
        simp only [updThr_self]
        simp only [List.mem_append, List.mem_singleton]
        constructor
        · rintro (hin | hone)
          · have := (hmem u j).1 hin
            omega
          · injection hone with h1 h2
            omega
        · intro hj
          rcases Nat.lt_succ_iff_lt_or_eq.1 hj with hlt | heq2
          · exact Or.inl ((hmem u j).2 hlt)
          · subst heq2
            exact Or.inr rfl
      · simp only [updThr_other _ _ _ _ hu]
        simp only [List.mem_append, List.mem_singleton]
        constructor
        · rintro (hin | hone)
          · exact (hmem u j).1 hin
          · injection hone with h1 h2
            exact absurd h1 hu
        · intro hj
          exact Or.inl ((hmem u j).2 hj)
    · refine ⟨?_, ?_⟩
      · intro u
        by_cases hu : u = t
        · subst hu
          simp only [updThr_self]
        · simp only [updThr_other _ _ _ _ hu]
          exact hpend u hu
      · rw [hsink, hwe]
        simp

theorem reach_inv {N M : Nat} {rec : Fin N → Nat → Str} {s : SysSt N}
    (h : Reach N M rec s) : LogInv N M rec s := by
  induction h with
  | refl => exact inv_initSt N M rec
  | tail hr hstep ih => exact inv_step ih hstep

/-- Claim C1: for every N concurrent callers each emitting M messages
through the mutex-protected per-severity logging operations into the shared
captured sink, every finished execution under every interleaving leaves the
sink holding exactly N times M newline-terminated lines, each line being
exactly one complete record (the full composed line of one (thread,
message) pair, each pair occurring exactly once): no line is a fragment of
a record or a concatenation of two records. -/
theorem concurrent_no_interleaving (N M : Nat) (rec : Fin N → Nat → Str)
    (hrec : ∀ t : Fin N, ∀ j : Nat, j < M → ∃ b, rec t j = b ++ ['\n'] ∧ '\n' ∉ b)
    (s : SysSt N) (hreach : Reach N M rec s) (hfin : FinalSt N M s) :
    ∃ order : List (Fin N × Nat),
      order.Nodup ∧
      (∀ (t : Fin N) (j : Nat), (t, j) ∈ order ↔ j < M) ∧
      order.length = N * M ∧
      splitRecords s.sink = order.map (fun p => rec p.1 p.2) ∧
      (splitRecords s.sink).length = N * M := by
  obtain ⟨hbound, done, hnodup, hmem, hrest⟩ := reach_inv hreach
  obtain ⟨hthr, hmux⟩ := hfin
  rw [hmux] at hrest
  obtain ⟨hpend, hsink⟩ := hrest
  have hmem2 : ∀ (t : Fin N) (j : Nat), (t, j) ∈ done ↔ j < M := by
    intro t j
    rw [hmem t j, hthr t]
  have hlen : done.length = N * M := by
    have hperm : done.Perm (allPairs N M) := by
      rw [List.perm_ext_iff_of_nodup hnodup (allPairs_nodup N M)]
      intro p
      obtain ⟨t, j⟩ := p
      rw [hmem2 t j, allPairs_mem N M t j]
    rw [hperm.length_eq, allPairs_length]
  have hsplit : splitRecords s.sink = done.map fun p => rec p.1 p.2 := by
    rw [hsink]
    apply splitRecords_flatten
    intro r hr
    rw [List.mem_map] at hr
    obtain ⟨p, hp, hrp⟩ := hr
    have hj : p.2 < M := (hmem2 p.1 p.2).1 hp
    obtain ⟨b, hb, hnb⟩ := hrec p.1 p.2 hj
    exact ⟨b, by rw [← hrp, hb], hnb⟩
  refine ⟨done, hnodup, hmem2, hlen, hsplit, ?_⟩
  rw [hsplit, List.length_map, hlen]

/-- Witness for C1: one thread writing its single record a-newline through
the model yields a sink of exactly one line equal to that record. -/
theorem concurrent_no_interleaving_witness :
    ∃ order : List (Fin 1 × Nat),
      order.Nodup ∧
      (∀ (t : Fin 1) (j : Nat), (t, j) ∈ order ↔ j < 1) ∧
      order.length = 1 * 1 ∧
      splitRecords (str2 "a\n") = order.map (fun _ => str2 "a\n") ∧
      (splitRecords (str2 "a\n")).length = 1 * 1 := by
  have chain := Relation.ReflTransGen.head
    (@Step.lock 1 1 (fun _ _ => str2 "a\n") (initSt 1) 0 rfl rfl (by decide))
    (Relation.ReflTransGen.head (Step.emit _ 0 'a' ['\n'] rfl rfl)
      (Relation.ReflTransGen.head (Step.emit _ 0 '\n' [] rfl rfl)
        (Relation.ReflTransGen.head (Step.unlock _ 0 rfl rfl)
          Relation.ReflTransGen.refl)))
  have hinst := concurrent_no_interleaving 1 1 (fun _ _ => str2 "a\n")
    (fun t j hj => ⟨['a'], rfl, by decide⟩) _ chain
    ⟨fun t => by fin_cases t; rfl, rfl⟩
  exact hinst
